import Mathlib

/-!
Verification of the numerical/algorithmic core of two neural-computation
exercises: a Hopfield associative memory (training by Hebbian outer products
and asynchronous sign-based recall) and a frog visual-stimulus model
(explicit Euler integration, winner selection with tie policies, motor
encoding, and a hysteresis gate).  Machine reals are modelled by ℚ, arrays
by lists or by functions out of ℕ with an explicit length parameter.
-/

/-! ### Hopfield network (Tarea3_IBS.py) -/

/-- Hebbian accumulation loop: starting from the zero matrix, add the outer
product of each pattern with itself (`for p in patterns: W += np.outer(p, p)`). -/
def outerAcc (patterns : List (ℕ → ℚ)) : ℕ → ℕ → ℚ :=
  patterns.foldl (fun W p => fun i j => W i j + p i * p j) (fun _ _ => 0)

/-- Embedding of `train_hopfield`: accumulate outer products, divide every
entry by the number of neurons `L`, zero the diagonal, then scale by the
normalization factor. -/
def train_hopfield (patterns : List (ℕ → ℚ)) (L : ℕ) (normalization_factor : ℚ) :
    ℕ → ℕ → ℚ :=
  let W1 := outerAcc patterns
  let W2 : ℕ → ℕ → ℚ := fun i j => W1 i j / (L : ℚ)
  let W3 : ℕ → ℕ → ℚ := fun i j => if i = j then 0 else W2 i j
  fun i j => W3 i j * normalization_factor

/-- `np.sign` on exact rationals: 1 for positive, -1 for negative, 0 for 0. -/
def signQ (q : ℚ) : ℚ := if 0 < q then 1 else if q < 0 then -1 else 0

/-- Dot product of a matrix row with the state vector over indices `0..L-1`
(`np.dot(W[i], x)`). -/
def dotRow (L : ℕ) (row x : ℕ → ℚ) : ℚ :=
  Finset.sum (Finset.range L) (fun j => row j * x j)

/-- One in-place neuron update: `x[i] = np.sign(np.dot(W[i], x))`. -/
def updateAt (W : ℕ → ℕ → ℚ) (L : ℕ) (x : ℕ → ℚ) (i : ℕ) : ℕ → ℚ :=
  Function.update x i (signQ (dotRow L (W i) x))

/-- State of the in-place sweep of `hopfield_step_async` after the first `k`
neuron updates. -/
def sweepUpTo (x : ℕ → ℚ) (W : ℕ → ℕ → ℚ) (L k : ℕ) : ℕ → ℚ :=
  (List.range k).foldl (updateAt W L) x

/-- Embedding of `hopfield_step_async`: update every neuron `i` in ascending
index order, in place, on a state vector of length `L`. -/
def hopfield_step_async (x : ℕ → ℚ) (W : ℕ → ℕ → ℚ) (L : ℕ) : ℕ → ℚ :=
  (List.range L).foldl (updateAt W L) x

/-- Embedding of `recall_async`: `steps` full asynchronous sweeps starting
from (a copy of) the query pattern. -/
def recall_async (pattern : ℕ → ℚ) (W : ℕ → ℕ → ℚ) (L steps : ℕ) : ℕ → ℚ :=
  (fun v => hopfield_step_async v W L)^[steps] pattern

/-- Store of numpy arrays: addresses map to array contents, `next` is the
next fresh address.  Used to make the aliasing behaviour of the Python code
explicit. -/
structure Heap where
  mem : ℕ → ℕ → ℚ
  next : ℕ

/-- `hopfield_step_async(x, W)` as a store operation: it mutates the array
at address `a` in place (and returns that same array). -/
def stepAsyncHeap (W : ℕ → ℕ → ℚ) (L : ℕ) (a : ℕ) (h : Heap) : Heap :=
  ⟨Function.update h.mem a (hopfield_step_async (h.mem a) W L), h.next⟩

/-- `recall_async(pattern, W, steps)` as a store operation: allocate a fresh
array `x = pattern.copy()`, run `steps` in-place sweeps on it, and return its
address together with the final store. -/
def recall_asyncHeap (W : ℕ → ℕ → ℚ) (L : ℕ) (p : ℕ) (steps : ℕ) (h : Heap) :
    ℕ × Heap :=
  let a := h.next
  let h1 : Heap := ⟨Function.update h.mem a (h.mem p), h.next + 1⟩
  (a, (stepAsyncHeap W L a)^[steps] h1)

/-! ### Frog visual-stimulus model (Tarea2_IBS.py) -/

/-- Python `int()` applied to an exact quotient: truncation toward zero. -/
def pyInt (q : ℚ) : ℤ := if 0 ≤ q then ⌊q⌋ else ⌈q⌉

/-- One Euler step on the pair (value, time):
`y = y + f(y, t, I_ext) * dt; t = t + dt`. -/
def eulerStep (f : ℚ → ℚ → ℚ → ℚ) (I dt : ℚ) (s : ℚ × ℚ) : ℚ × ℚ :=
  (s.1 + f s.1 s.2 I * dt, s.2 + dt)

/-- Loop body of `euler_method`: run `n` Euler steps, appending each new
value and time to the accumulated lists. -/
def eulerLoop (f : ℚ → ℚ → ℚ → ℚ) (I dt : ℚ) :
    ℕ → ℚ × ℚ × List ℚ × List ℚ → ℚ × ℚ × List ℚ × List ℚ
  | 0, s => s
  | n + 1, (y, t, ys, ts) =>
    eulerLoop f I dt n
      (y + f y t I * dt, t + dt, ys ++ [y + f y t I * dt], ts ++ [t + dt])

/-- Embedding of `euler_method`: `n_steps = int((tf - t0) / dt)` computed
once, then the loop; returns `(ts, ys)`. -/
def euler_method (f : ℚ → ℚ → ℚ → ℚ) (y0 t0 tf dt I_ext : ℚ) :
    List ℚ × List ℚ :=
  let n := (pyInt ((tf - t0) / dt)).toNat
  let s := eulerLoop f I_ext dt n (y0, t0, [y0], [t0])
  (s.2.2.2, s.2.2.1)

/-- Embedding of `membrane_potential`: `tau = 10`, `v_rest = -65`,
returns `(-(v - v_rest) + I_ext) / tau`.  The general form with `tau` and
`v_rest` as the per-instance constants of the model family. -/
def membraneDeriv (tau v_rest : ℚ) : ℚ → ℚ → ℚ → ℚ :=
  fun v _t I_ext => (-(v - v_rest) + I_ext) / tau

/-- The concrete derivative of the reference scenarios (`membrane_potential`). -/
def membrane_potential : ℚ → ℚ → ℚ → ℚ := membraneDeriv 10 (-65)

/-- Python `max(stimuli)` for a non-empty list. -/
def maxValue (s : List ℚ) : ℚ := s.foldl max (s.headD 0)

/-- `[i for i, val in enumerate(stimuli) if val == max_value]`. -/
def maxIndices (s : List ℚ) : List ℕ :=
  (List.range s.length).filter (fun i => decide (s.getD i 0 = maxValue s))

/-- Spec-side characterisation of the winners: the indices whose entry is
greater than or equal to every entry of the vector. -/
def argmaxIndices (s : List ℚ) : List ℕ :=
  (List.range s.length).filter
    (fun i => (List.range s.length).all (fun j => decide (s.getD j 0 ≤ s.getD i 0)))

/-- Embedding of `select_stimulus` (AllowTies): return the whole list of
maximising indices when there are at least two, the single index otherwise. -/
def select_stimulus (s : List ℚ) : List ℕ ⊕ ℕ :=
  let mi := maxIndices s
  if 1 < mi.length then Sum.inl mi else Sum.inr (mi.headD 0)

/-- Embedding of `select_stimulus_no_winner` (RejectTies): `None` when there
are at least two maximising indices, the single index otherwise. -/
def select_stimulus_no_winner (s : List ℚ) : Option ℕ :=
  let mi := maxIndices s
  if 1 < mi.length then none else some (mi.headD 0)

/-- Embedding of `hysteresis`: return the maximal stimulus when it strictly
exceeds the threshold, the previous output otherwise. -/
def hysteresis (stimuli : List ℚ) (previous_output threshold : ℚ) : ℚ :=
  let max_stimulus := maxValue stimuli
  if max_stimulus > threshold then max_stimulus else previous_output

/-- Direction for a single winning index: `i - (n - 1) / 2`. -/
def direction_single (i n : ℕ) : ℚ := (i : ℚ) - ((n : ℚ) - 1) / 2

/-- Direction for several tied winners: the average of their single-index
directions. -/
def direction_tied (l : List ℕ) (n : ℕ) : ℚ :=
  (l.map (fun i => direction_single i n)).sum / (l.length : ℚ)

/-- Embedding of `motor_scheme`: select the stimulus, then encode the
selection as a signed direction. -/
def motor_scheme (s : List ℚ) : ℚ :=
  match select_stimulus s with
  | Sum.inl l => direction_tied l s.length
  | Sum.inr i => direction_single i s.length

/-- One step of the streaming hysteresis integrator: when the external
current strictly exceeds the threshold, take an Euler step and refresh the
retained state; otherwise both the value and the retained state are the old
retained state. -/
def hystStep (funcion : ℚ → ℚ → ℚ → ℚ) (umbral dt : ℚ) (I v t vprev : ℚ) :
    ℚ × ℚ :=
  if I > umbral then
    (v + funcion v t I * dt, v + funcion v t I * dt)
  else
    (vprev, vprev)

/-- Loop body of `metodoEulerHisteresis`: `n` remaining iterations, current
index `i`, state `(voltaje, voltajeAnterior, tiempo, voltajes, tiempos)`. -/
def hisLoop (funcion : ℚ → ℚ → ℚ → ℚ) (dt : ℚ) (estimulos : List ℚ) (umbral : ℚ) :
    ℕ → ℕ → ℚ × ℚ × ℚ × List ℚ × List ℚ → ℚ × ℚ × ℚ × List ℚ × List ℚ
  | 0, _, st => st
  | n + 1, i, (v, vAnt, t, vs, ts) =>
    let corriente := if i < estimulos.length then estimulos.getD i 0 * 10 else 0
    let step := hystStep funcion umbral dt corriente v t vAnt
    hisLoop funcion dt estimulos umbral n (i + 1)
      (step.1, step.2, t + dt, vs ++ [step.1], ts ++ [t + dt])

/-- Embedding of `metodoEulerHisteresis`: truncated step count computed once,
then the per-step hysteresis-gated Euler loop over the time-indexed stimulus
sequence (stimuli beyond the sequence length contribute zero current);
returns `(tiempos, voltajes)`. -/
def metodoEulerHisteresis (funcion : ℚ → ℚ → ℚ → ℚ)
    (voltajeInicial tiempoInicial tiempoFinal pasoTiempo : ℚ)
    (estimulos : List ℚ) (umbral voltajeAnterior : ℚ) : List ℚ × List ℚ :=
  let n := (pyInt ((tiempoFinal - tiempoInicial) / pasoTiempo)).toNat
  let s := hisLoop funcion pasoTiempo estimulos umbral n 0
    (voltajeInicial, voltajeAnterior, tiempoInicial, [voltajeInicial], [tiempoInicial])
  (s.2.2.2.2, s.2.2.2.1)

/-- Stimulus vector of Simulation 2 (`[0.1,0.5,0.8,0.9,0.2,0.7,0.4,0.3,0.9,0.2]`). -/
def stimuli_2 : List ℚ :=
  [1/10, 1/2, 4/5, 9/10, 1/5, 7/10, 2/5, 3/10, 9/10, 1/5]

/-- Stimulus vector of Simulation 4 (`[0.1,0.5,0.73,0.4,0.6,0.44,0.2,0.62,0.3,0.5]`). -/
def stimuli_4 : List ℚ :=
  [1/10, 1/2, 73/100, 2/5, 3/5, 11/25, 1/5, 31/50, 3/10, 1/2]

/-- Stimulus vector of Simulation 1 (`[0.1,0.5,0.8,0.6,0.2,0.7,0.4,0.3,0.9,0.2]`). -/
def stimuli_1 : List ℚ :=
  [1/10, 1/2, 4/5, 3/5, 1/5, 7/10, 2/5, 3/10, 9/10, 1/5]

lemma foldl_outer_apply (patterns : List (ℕ → ℚ)) (W0 : ℕ → ℕ → ℚ) (i j : ℕ) :
    patterns.foldl (fun (W : ℕ → ℕ → ℚ) (p : ℕ → ℚ) => fun i j => W i j + p i * p j) W0 i j
      = W0 i j + (patterns.map (fun p => p i * p j)).sum := by
  induction patterns generalizing W0 with
  | nil => simp
  | cons p ps ih => simp [List.foldl_cons, ih, add_assoc]

lemma outerAcc_apply (patterns : List (ℕ → ℚ)) (i j : ℕ) :
    outerAcc patterns i j = (patterns.map (fun p => p i * p j)).sum := by
  unfold outerAcc
  rw [foldl_outer_apply]
  simp

/-- Claim C1: for every non-empty batch of bipolar patterns of common length `L`
and every normalization factor, `train_hopfield` returns the matrix obtained by
summing the outer products of the patterns with themselves, dividing every
entry by `L`, zeroing the diagonal and scaling by the factor; the result is
symmetric with zero diagonal. -/
theorem c1_train (patterns : List (ℕ → ℚ)) (L : ℕ) (f : ℚ) (i j : ℕ)
    (hne : patterns ≠ [])
    (hbip : ∀ p ∈ patterns, ∀ m, m < L → p m = 1 ∨ p m = -1) :
    train_hopfield patterns L f i j
      = (if i = j then 0 else ((patterns.map (fun p => p i * p j)).sum / (L : ℚ))) * f ∧
    train_hopfield patterns L f i j = train_hopfield patterns L f j i ∧
    train_hopfield patterns L f i i = 0 := by
  refine ⟨?_, ?_, ?_⟩
  · simp [train_hopfield, outerAcc_apply]
  · have hsum : (patterns.map (fun p => p i * p j)).sum
        = (patterns.map (fun p => p j * p i)).sum := by
      induction patterns with
      | nil => rfl
      | cons p ps ih => simp [ih, mul_comm]
    by_cases h : i = j
    · subst h; rfl
    · simp [train_hopfield, outerAcc_apply, h, Ne.symm h, hsum]
  · simp [train_hopfield]

/-- Witness for C1 at a concrete two-pattern batch of length 2. -/
theorem c1_train_witness :
    ([fun _ => (1 : ℚ), fun m => if m = 0 then 1 else -1] : List (ℕ → ℚ)) ≠ [] ∧
    train_hopfield [fun _ => (1 : ℚ), fun m => if m = 0 then 1 else -1] 2 (1/20) 0 1
      = (if (0 : ℕ) = 1 then 0
         else ((([fun _ => (1 : ℚ), fun m => if m = 0 then 1 else -1] : List (ℕ → ℚ)).map
            (fun p => p 0 * p 1)).sum / ((2 : ℕ) : ℚ))) * (1/20) := by
  constructor
  · simp
  · exact (c1_train [fun _ => (1 : ℚ), fun m => if m = 0 then 1 else -1] 2 (1/20) 0 1
      (by simp)
      (by
        intro p hp m _
        simp only [List.mem_cons, List.mem_singleton, List.not_mem_nil, or_false] at hp
        rcases hp with h | h
        · subst h; left; rfl
        · subst h
          by_cases hm : m = 0
          · subst hm; left; rfl
          · right; simp [hm])).1

/-- Claim C8: the asynchronous update maps `sign(0)` to `0`: on the weight
matrix trained from the two orthogonal patterns `[1,1]` and `[1,-1]` (which is
the zero matrix) and the state `[1,1]`, the dot product is exactly zero at each
update, so the sweep writes `0` — a value outside `{-1, +1}` — into every
entry. -/
theorem c8_sign_zero :
    signQ 0 = 0 ∧
    hopfield_step_async (fun _ => 1)
      (train_hopfield [fun _ => (1 : ℚ), fun m => if m = 0 then 1 else -1] 2 (1/20)) 2 0 = 0 ∧
    hopfield_step_async (fun _ => 1)
      (train_hopfield [fun _ => (1 : ℚ), fun m => if m = 0 then 1 else -1] 2 (1/20)) 2 1 = 0 ∧
    (0 : ℚ) ≠ 1 ∧ (0 : ℚ) ≠ -1 := by
  refine ⟨rfl, ?_, ?_, by norm_num, by norm_num⟩ <;>
    norm_num [hopfield_step_async, List.range_succ, updateAt, dotRow,
      Finset.sum_range_succ, train_hopfield, outerAcc, signQ, Function.update]

lemma sweepUpTo_succ (x : ℕ → ℚ) (W : ℕ → ℕ → ℚ) (L k : ℕ) :
    sweepUpTo x W L (k + 1) = updateAt W L (sweepUpTo x W L k) k := by
  simp [sweepUpTo, List.range_succ]

lemma sweepUpTo_ge (x : ℕ → ℚ) (W : ℕ → ℕ → ℚ) (L : ℕ) :
    ∀ k j, k ≤ j → sweepUpTo x W L k j = x j := by
  intro k
  induction k with
  | zero => intro j _; rfl
  | succ n ih =>
    intro j hj
    rw [sweepUpTo_succ]
    have hne : j ≠ n := by omega
    simp only [updateAt, Function.update_noteq hne]
    exact ih j (by omega)

lemma sweepUpTo_stable (x : ℕ → ℚ) (W : ℕ → ℕ → ℚ) (L : ℕ) :
    ∀ m k j, j < k → k ≤ m → sweepUpTo x W L m j = sweepUpTo x W L k j := by
  intro m
  induction m with
  | zero =>
    intro k j h1 h2
    have : k = 0 := Nat.le_zero.mp h2
    subst this
    exact absurd h1 (Nat.not_lt_zero j)
  | succ n ih =>
    intro k j h1 h2
    rcases Nat.eq_or_lt_of_le h2 with he | hl
    · rw [he]
    · rw [sweepUpTo_succ]
      have hne : j ≠ n := by omega
      simp only [updateAt, Function.update_noteq hne]
      exact ih k j h1 (by omega)

lemma sweep_char (x : ℕ → ℚ) (W : ℕ → ℕ → ℚ) (L i : ℕ) (hi : i < L) :
    hopfield_step_async x W L i
      = signQ (dotRow L (W i)
          (fun j => if j < i then hopfield_step_async x W L j else x j)) := by
  have hstep : hopfield_step_async x W L = sweepUpTo x W L L := rfl
  rw [hstep]
  have h1 : sweepUpTo x W L L i = sweepUpTo x W L (i + 1) i :=
    sweepUpTo_stable x W L L (i + 1) i (Nat.lt_succ_self i) hi
  rw [h1, sweepUpTo_succ]
  simp only [updateAt, Function.update_same]
  congr 1
  unfold dotRow
  apply Finset.sum_congr rfl
  intro j hj
  congr 1
  dsimp only
  by_cases hji : j < i
  · rw [if_pos hji]
    have ha : sweepUpTo x W L i j = sweepUpTo x W L (j + 1) j :=
      sweepUpTo_stable x W L i (j + 1) j (Nat.lt_succ_self j) hji
    have hb : sweepUpTo x W L L j = sweepUpTo x W L (j + 1) j :=
      sweepUpTo_stable x W L L (j + 1) j (Nat.lt_succ_self j)
        (Nat.succ_le_of_lt (lt_trans hji hi))
    rw [ha, hb]
  · rw [if_neg hji]
    exact sweepUpTo_ge x W L i j (Nat.le_of_not_lt hji)

/-- Claim C2: `recall_async` performs exactly `steps` full sweeps (zero sweeps
return the input, `steps + 1` sweeps are one `hopfield_step_async` after
`steps` sweeps), and within a sweep neuron `i` is assigned
`sign(dot(W[i], x))` where the dot product reads the already-updated values at
indices `j < i` of the same sweep and the start-of-sweep values at `j ≥ i`. -/
theorem c2_recall (x : ℕ → ℚ) (W : ℕ → ℕ → ℚ) (L steps i : ℕ) (hi : i < L) :
    recall_async x W L 0 = x ∧
    recall_async x W L (steps + 1)
      = hopfield_step_async (recall_async x W L steps) W L ∧
    hopfield_step_async x W L i
      = signQ (dotRow L (W i)
          (fun j => if j < i then hopfield_step_async x W L j else x j)) :=
  ⟨rfl, Function.iterate_succ_apply' (fun v => hopfield_step_async v W L) steps x,
   sweep_char x W L i hi⟩

/-- Witness for C2 at a concrete state, matrix, sweep count and index. -/
theorem c2_recall_witness :
    (1 : ℕ) < 2 ∧
    (recall_async (fun _ => 1) (fun _ _ => 0) 2 0 = (fun _ => (1 : ℚ)) ∧
     recall_async (fun _ => 1) (fun _ _ => 0) 2 (3 + 1)
       = hopfield_step_async (recall_async (fun _ => 1) (fun _ _ => 0) 2 3) (fun _ _ => 0) 2 ∧
     hopfield_step_async (fun _ => 1) (fun _ _ => 0) 2 1
       = signQ (dotRow 2 ((fun _ _ => (0 : ℚ)) 1)
           (fun j => if j < 1 then hopfield_step_async (fun _ => 1) (fun _ _ => 0) 2 j
                     else (fun _ => (1 : ℚ)) j))) :=
  ⟨by decide, c2_recall (fun _ => 1) (fun _ _ => 0) 2 3 1 (by decide)⟩

lemma iterate_stepAsyncHeap_ne (W : ℕ → ℕ → ℚ) (L a q : ℕ) (hq : q ≠ a) :
    ∀ n (g : Heap), ((stepAsyncHeap W L a)^[n] g).mem q = g.mem q := by
  intro n
  induction n with
  | zero => intro g; rfl
  | succ n ih =>
    intro g
    rw [Function.iterate_succ_apply']
    show (Function.update ((stepAsyncHeap W L a)^[n] g).mem a _) q = g.mem q
    rw [Function.update_noteq hq]
    exact ih g

lemma iterate_stepAsyncHeap_self (W : ℕ → ℕ → ℚ) (L a : ℕ) :
    ∀ n (g : Heap),
      ((stepAsyncHeap W L a)^[n] g).mem a
        = (fun v => hopfield_step_async v W L)^[n] (g.mem a) := by
  intro n
  induction n with
  | zero => intro g; rfl
  | succ n ih =>
    intro g
    rw [Function.iterate_succ_apply', Function.iterate_succ_apply']
    show (Function.update ((stepAsyncHeap W L a)^[n] g).mem a
      (hopfield_step_async (((stepAsyncHeap W L a)^[n] g).mem a) W L)) a = _
    rw [Function.update_same, ih g]

/-- Claim C10: `recall_async` does not mutate its input: in the store model it
copies the query pattern to a fresh array before the in-place sweeps, so the
caller's array is unchanged after the call, while the returned array holds the
pure recall result of the original pattern. -/
theorem c10_no_mutation (W : ℕ → ℕ → ℚ) (L p steps : ℕ) (h : Heap)
    (hp : p < h.next) :
    ((recall_asyncHeap W L p steps h).2).mem p = h.mem p ∧
    ((recall_asyncHeap W L p steps h).2).mem (recall_asyncHeap W L p steps h).1
      = recall_async (h.mem p) W L steps := by
  have hpa : p ≠ h.next := Nat.ne_of_lt hp
  constructor
  · show ((stepAsyncHeap W L h.next)^[steps] _).mem p = h.mem p
    rw [iterate_stepAsyncHeap_ne W L h.next p hpa]
    exact Function.update_noteq hpa _ _
  · show ((stepAsyncHeap W L h.next)^[steps] _).mem h.next = _
    rw [iterate_stepAsyncHeap_self W L h.next]
    show (fun v => hopfield_step_async v W L)^[steps]
      ((Function.update h.mem h.next (h.mem p)) h.next) = _
    rw [Function.update_same]
    rfl

/-- Witness for C10 at a concrete store with one allocated array. -/
theorem c10_no_mutation_witness :
    (0 : ℕ) < 1 ∧
    ((recall_asyncHeap (fun _ _ => 0) 1 0 2 ⟨fun _ _ => 0, 1⟩).2).mem 0
        = (⟨fun _ _ => 0, 1⟩ : Heap).mem 0 ∧
    ((recall_asyncHeap (fun _ _ => 0) 1 0 2 ⟨fun _ _ => 0, 1⟩).2).mem
        (recall_asyncHeap (fun _ _ => 0) 1 0 2 ⟨fun _ _ => 0, 1⟩).1
      = recall_async ((⟨fun _ _ => 0, 1⟩ : Heap).mem 0) (fun _ _ => 0) 1 2 :=
  ⟨by decide, c10_no_mutation (fun _ _ => 0) 1 0 2 ⟨fun _ _ => 0, 1⟩ (by decide)⟩

lemma eulerLoop_eq (f : ℚ → ℚ → ℚ → ℚ) (I dt : ℚ) :
    ∀ (n : ℕ) (y t : ℚ) (ys ts : List ℚ),
      eulerLoop f I dt n (y, t, ys, ts)
        = (((eulerStep f I dt)^[n] (y, t)).1, ((eulerStep f I dt)^[n] (y, t)).2,
           ys ++ (List.range n).map (fun k => ((eulerStep f I dt)^[k + 1] (y, t)).1),
           ts ++ (List.range n).map (fun k => ((eulerStep f I dt)^[k + 1] (y, t)).2)) := by
  intro n
  induction n with
  | zero => intro y t ys ts; simp [eulerLoop]
  | succ n ih =>
    intro y t ys ts
    have hstep : (y + f y t I * dt, t + dt) = eulerStep f I dt (y, t) := rfl
    rw [eulerLoop, ih]
    rw [List.range_succ_eq_map]
    simp only [List.map_cons, List.map_map, List.append_assoc, List.singleton_append,
      Function.iterate_succ_apply, ← hstep]
    simp [Prod.ext_iff, Function.comp]

lemma euler_method_eq (f : ℚ → ℚ → ℚ → ℚ) (y0 t0 tf dt I : ℚ) :
    euler_method f y0 t0 tf dt I
      = (t0 :: (List.range (pyInt ((tf - t0) / dt)).toNat).map
            (fun k => ((eulerStep f I dt)^[k + 1] (y0, t0)).2),
         y0 :: (List.range (pyInt ((tf - t0) / dt)).toNat).map
            (fun k => ((eulerStep f I dt)^[k + 1] (y0, t0)).1)) := by
  show (((eulerLoop f I dt (pyInt ((tf - t0) / dt)).toNat (y0, t0, [y0], [t0])).2.2.2,
    (eulerLoop f I dt (pyInt ((tf - t0) / dt)).toNat (y0, t0, [y0], [t0])).2.2.1) :
      List ℚ × List ℚ) = _
  rw [eulerLoop_eq]
  rfl

lemma range_map_getD (g : ℕ → ℚ) (n k : ℕ) (hk : k < n) :
    ((List.range n).map g).getD k 0 = g k := by
  rw [List.getD_eq_getElem _ _ (by simpa using hk)]
  simp

lemma euler_vals_getD (f : ℚ → ℚ → ℚ → ℚ) (y0 t0 tf dt I : ℚ) (k : ℕ)
    (hk : k ≤ (pyInt ((tf - t0) / dt)).toNat) :
    (euler_method f y0 t0 tf dt I).2.getD k 0 = ((eulerStep f I dt)^[k] (y0, t0)).1 ∧
    (euler_method f y0 t0 tf dt I).1.getD k 0 = ((eulerStep f I dt)^[k] (y0, t0)).2 := by
  rw [euler_method_eq]
  cases k with
  | zero => exact ⟨rfl, rfl⟩
  | succ m =>
    constructor <;>
      · show ((List.range _).map _).getD m 0 = _
        rw [range_map_getD]
        omega

/-- Claim C3: for `t0 ≤ tf` and `dt > 0`, `euler_method` returns two sequences
of equal length `n + 1` with `n = floor((tf - t0) / dt)` computed once; the
first entries are the initial value and `t0`, and each step satisfies
`value[k+1] = value[k] + dt * f(value[k], t[k], I)` and `t[k+1] = t[k] + dt`. -/
theorem c3_integrate (f : ℚ → ℚ → ℚ → ℚ) (y0 t0 tf dt I : ℚ) (k : ℕ)
    (h1 : t0 ≤ tf) (h2 : 0 < dt)
    (hk : k + 1 ≤ (pyInt ((tf - t0) / dt)).toNat) :
    (euler_method f y0 t0 tf dt I).1.length = (pyInt ((tf - t0) / dt)).toNat + 1 ∧
    (euler_method f y0 t0 tf dt I).2.length = (pyInt ((tf - t0) / dt)).toNat + 1 ∧
    (((pyInt ((tf - t0) / dt)).toNat : ℤ)) = ⌊(tf - t0) / dt⌋ ∧
    (euler_method f y0 t0 tf dt I).2.getD 0 0 = y0 ∧
    (euler_method f y0 t0 tf dt I).1.getD 0 0 = t0 ∧
    (euler_method f y0 t0 tf dt I).2.getD (k + 1) 0
      = (euler_method f y0 t0 tf dt I).2.getD k 0
        + dt * f ((euler_method f y0 t0 tf dt I).2.getD k 0)
            ((euler_method f y0 t0 tf dt I).1.getD k 0) I ∧
    (euler_method f y0 t0 tf dt I).1.getD (k + 1) 0
      = (euler_method f y0 t0 tf dt I).1.getD k 0 + dt := by
  have hq : 0 ≤ (tf - t0) / dt := div_nonneg (sub_nonneg.mpr h1) h2.le
  have hks : k ≤ (pyInt ((tf - t0) / dt)).toNat := by omega
  obtain ⟨hyk, htk⟩ := euler_vals_getD f y0 t0 tf dt I k hks
  obtain ⟨hyk1, htk1⟩ := euler_vals_getD f y0 t0 tf dt I (k + 1) hk
  obtain ⟨hy0, ht0⟩ := euler_vals_getD f y0 t0 tf dt I 0 (Nat.zero_le _)
  have hiter : (eulerStep f I dt)^[k + 1] (y0, t0)
      = eulerStep f I dt ((eulerStep f I dt)^[k] (y0, t0)) :=
    Function.iterate_succ_apply' _ _ _
  refine ⟨?_, ?_, ?_, ?_, ?_, ?_, ?_⟩
  · rw [euler_method_eq]; simp
  · rw [euler_method_eq]; simp
  · unfold pyInt
    rw [if_pos hq]
    exact Int.toNat_of_nonneg (Int.floor_nonneg.mpr hq)
  · exact hy0
  · exact ht0
  · rw [hyk1, hyk, htk, hiter]
    show ((eulerStep f I dt)^[k] (y0, t0)).1
        + f ((eulerStep f I dt)^[k] (y0, t0)).1 ((eulerStep f I dt)^[k] (y0, t0)).2 I * dt = _
    ring
  · rw [htk1, htk, hiter]
    rfl

/-- Witness for C3: the reference membrane derivative integrated over two
steps of size 1/2. -/
theorem c3_integrate_witness :
    (0 : ℚ) ≤ 1 ∧ (0 : ℚ) < 1/2 ∧ 0 + 1 ≤ (pyInt ((1 - 0) / (1/2))).toNat ∧
    ((euler_method membrane_potential (-70) 0 1 (1/2) 9).1.length
        = (pyInt ((1 - 0) / (1/2))).toNat + 1 ∧
     (euler_method membrane_potential (-70) 0 1 (1/2) 9).2.length
        = (pyInt ((1 - 0) / (1/2))).toNat + 1 ∧
     (((pyInt ((1 - 0) / (1/2))).toNat : ℤ)) = ⌊((1 : ℚ) - 0) / (1/2)⌋ ∧
     (euler_method membrane_potential (-70) 0 1 (1/2) 9).2.getD 0 0 = -70 ∧
     (euler_method membrane_potential (-70) 0 1 (1/2) 9).1.getD 0 0 = 0 ∧
     (euler_method membrane_potential (-70) 0 1 (1/2) 9).2.getD (0 + 1) 0
       = (euler_method membrane_potential (-70) 0 1 (1/2) 9).2.getD 0 0
         + (1/2) * membrane_potential
             ((euler_method membrane_potential (-70) 0 1 (1/2) 9).2.getD 0 0)
             ((euler_method membrane_potential (-70) 0 1 (1/2) 9).1.getD 0 0) 9 ∧
     (euler_method membrane_potential (-70) 0 1 (1/2) 9).1.getD (0 + 1) 0
       = (euler_method membrane_potential (-70) 0 1 (1/2) 9).1.getD 0 0 + 1/2) :=
  ⟨by norm_num, by norm_num,
   by norm_num [pyInt],
   c3_integrate membrane_potential (-70) 0 1 (1/2) 9 0 (by norm_num) (by norm_num)
     (by norm_num [pyInt])⟩

lemma decay_closed (tau dt y0 t0 : ℚ) :
    ∀ k : ℕ, (eulerStep (membraneDeriv tau 0) 0 dt)^[k] (y0, t0)
      = (y0 * (1 - dt / tau) ^ k, t0 + k * dt) := by
  intro k
  induction k with
  | zero => simp
  | succ n ih =>
    rw [Function.iterate_succ_apply', ih]
    show (_ + membraneDeriv tau 0 _ _ 0 * dt, _ + dt) = _
    unfold membraneDeriv
    rw [Prod.mk.injEq]
    refine ⟨?_, ?_⟩
    · show y0 * (1 - dt / tau) ^ n + (-(y0 * (1 - dt / tau) ^ n - 0) + 0) / tau * dt
        = y0 * (1 - dt / tau) ^ (n + 1)
      rw [pow_succ]
      ring
    · show t0 + (n : ℚ) * dt + dt = t0 + ((n : ℕ) + 1 : ℕ) * dt
      push_cast
      ring

/-- Claim C9 (amended): with external input 0 and resting potential 0, the
Euler trajectory decays strictly monotonically toward 0 with preserved sign
from every nonzero initial value, provided additionally `dt < tau`; the
original claim quantified over every `dt > 0` and fails for large steps
(see the counterexample). -/
theorem c9_decay (tau dt y0 t0 tf : ℚ) (k : ℕ)
    (htau : 0 < tau) (hdt : 0 < dt) (hlt : dt < tau) (hy : y0 ≠ 0) (hts : t0 ≤ tf)
    (hk : k + 1 ≤ (pyInt ((tf - t0) / dt)).toNat) :
    |(euler_method (membraneDeriv tau 0) y0 t0 tf dt 0).2.getD (k + 1) 0|
      < |(euler_method (membraneDeriv tau 0) y0 t0 tf dt 0).2.getD k 0| ∧
    (0 < y0 → 0 < (euler_method (membraneDeriv tau 0) y0 t0 tf dt 0).2.getD (k + 1) 0) ∧
    (y0 < 0 → (euler_method (membraneDeriv tau 0) y0 t0 tf dt 0).2.getD (k + 1) 0 < 0) := by
  have hks : k ≤ (pyInt ((tf - t0) / dt)).toNat := by omega
  obtain ⟨hyk, -⟩ := euler_vals_getD (membraneDeriv tau 0) y0 t0 tf dt 0 k hks
  obtain ⟨hyk1, -⟩ := euler_vals_getD (membraneDeriv tau 0) y0 t0 tf dt 0 (k + 1) hk
  rw [hyk1, hyk, decay_closed, decay_closed]
  have hdiv1 : dt / tau < 1 := (div_lt_one htau).mpr hlt
  have hdiv0 : 0 < dt / tau := div_pos hdt htau
  have hr0 : 0 < 1 - dt / tau := by linarith
  have hr1 : 1 - dt / tau < 1 := by linarith
  have hpow : ∀ m : ℕ, (0 : ℚ) < (1 - dt / tau) ^ m := fun m => pow_pos hr0 m
  refine ⟨?_, ?_, ?_⟩
  · show |y0 * (1 - dt / tau) ^ (k + 1)| < |y0 * (1 - dt / tau) ^ k|
    rw [abs_mul, abs_mul, abs_pow, abs_pow, abs_of_pos hr0]
    have hy0 : 0 < |y0| := abs_pos.mpr hy
    have hlt2 : (1 - dt / tau) ^ (k + 1) < (1 - dt / tau) ^ k := by
      rw [pow_succ]
      calc (1 - dt / tau) ^ k * (1 - dt / tau)
          < (1 - dt / tau) ^ k * 1 := mul_lt_mul_of_pos_left hr1 (hpow k)
        _ = (1 - dt / tau) ^ k := mul_one _
    exact mul_lt_mul_of_pos_left hlt2 hy0
  · intro h
    exact mul_pos h (hpow (k + 1))
  · intro h
    exact mul_neg_of_neg_of_pos h (hpow (k + 1))

/-- Witness for C9 at `tau = 10`, `dt = 1`, `y0 = 5` over `[0, 2]`. -/
theorem c9_decay_witness :
    (0 : ℚ) < 10 ∧ (0 : ℚ) < 1 ∧ (1 : ℚ) < 10 ∧ (5 : ℚ) ≠ 0 ∧ (0 : ℚ) ≤ 2 ∧
    0 + 1 ≤ (pyInt ((2 - 0) / 1)).toNat ∧
    (|(euler_method (membraneDeriv 10 0) 5 0 2 1 0).2.getD (0 + 1) 0|
       < |(euler_method (membraneDeriv 10 0) 5 0 2 1 0).2.getD 0 0| ∧
     (0 < (5 : ℚ) → 0 < (euler_method (membraneDeriv 10 0) 5 0 2 1 0).2.getD (0 + 1) 0) ∧
     ((5 : ℚ) < 0 → (euler_method (membraneDeriv 10 0) 5 0 2 1 0).2.getD (0 + 1) 0 < 0)) :=
  ⟨by norm_num, by norm_num, by norm_num, by norm_num, by norm_num,
   by norm_num [pyInt],
   c9_decay 10 1 5 0 2 0 (by norm_num) (by norm_num) (by norm_num) (by norm_num)
     (by norm_num) (by norm_num [pyInt])⟩

/-- Counterexample to C9 as stated: with `tau = 10 > 0`, `dt = 30 > 0`,
`y0 = 1 ≠ 0`, `t0 = 0 ≤ 60 = tf`, the second value is `-2`: it is farther from
0 than its predecessor `1` and its sign flips. -/
theorem c9_counterexample :
    (0 : ℚ) < 10 ∧ (0 : ℚ) < 30 ∧ (1 : ℚ) ≠ 0 ∧ (0 : ℚ) ≤ 60 ∧
    (euler_method (membraneDeriv 10 0) 1 0 60 30 0).2.getD 0 0 = 1 ∧
    (euler_method (membraneDeriv 10 0) 1 0 60 30 0).2.getD 1 0 = -2 ∧
    ¬ (|(euler_method (membraneDeriv 10 0) 1 0 60 30 0).2.getD 1 0|
        < |(euler_method (membraneDeriv 10 0) 1 0 60 30 0).2.getD 0 0|) ∧
    ¬ (0 < (euler_method (membraneDeriv 10 0) 1 0 60 30 0).2.getD 1 0) := by
  norm_num [euler_method, eulerLoop, pyInt, membraneDeriv]

/-- Claim C7 (amended): neither `euler_method` nor `metodoEulerHisteresis`
validates its step configuration; when the computed quotient
`(t_end - t_start) / step_size` is negative the truncated step count is zero,
the loop body never runs, and both return the single-point sequences
`([t_start], [initial_value])` — no failure is reported. -/
theorem c7_no_validation (f g : ℚ → ℚ → ℚ → ℚ) (y0 t0 tf dt I v0 um va : ℚ)
    (est : List ℚ) (hneg : (tf - t0) / dt < 0) :
    euler_method f y0 t0 tf dt I = ([t0], [y0]) ∧
    metodoEulerHisteresis g v0 t0 tf dt est um va = ([t0], [v0]) := by
  have hceil : pyInt ((tf - t0) / dt) = ⌈(tf - t0) / dt⌉ := if_neg (not_le.mpr hneg)
  have hle : (⌈(tf - t0) / dt⌉ : ℤ) ≤ 0 := Int.ceil_le.mpr (by exact_mod_cast hneg.le)
  have hzero : (pyInt ((tf - t0) / dt)).toNat = 0 := by
    rw [hceil]
    exact Int.toNat_of_nonpos hle
  constructor
  · unfold euler_method
    rw [hzero]
    rfl
  · unfold metodoEulerHisteresis
    rw [hzero]
    rfl

/-- Witness for C7 at `t_end = -1 < 0 = t_start`, `step_size = 1`. -/
theorem c7_no_validation_witness :
    ((-1 : ℚ) - 0) / 1 < 0 ∧
    (euler_method (fun _ _ _ => (0 : ℚ)) 5 0 (-1) 1 0 = ([0], [5]) ∧
     metodoEulerHisteresis (fun _ _ _ => (0 : ℚ)) (-65) 0 (-1) 1 [] (1/2) (-65)
       = ([0], [-65])) :=
  ⟨by norm_num,
   c7_no_validation (fun _ _ _ => 0) (fun _ _ _ => 0) 5 0 (-1) 1 0 (-65) (1/2) (-65) []
     (by norm_num)⟩

/-- Counterexample to C7 as stated: at `t_end = -1 < 0 = t_start` with
`step_size = 1 > 0` both integrators return normally with usable single-point
output sequences instead of rejecting the call. -/
theorem c7_counterexample :
    euler_method (fun _ _ _ => (0 : ℚ)) 5 0 (-1) 1 0 = ([0], [5]) ∧
    metodoEulerHisteresis (fun _ _ _ => (0 : ℚ)) (-65) 0 (-1) 1 [] (1/2) (-65)
      = ([0], [-65]) ∧
    (euler_method (fun _ _ _ => (0 : ℚ)) 5 0 (-1) 1 0).1.length = 1 ∧
    (euler_method (fun _ _ _ => (0 : ℚ)) 5 0 (-1) 1 0).2.length = 1 := by
  refine ⟨?_, ?_, ?_, ?_⟩ <;>
    norm_num [euler_method, metodoEulerHisteresis, hisLoop, eulerLoop, pyInt]

lemma le_foldl_max (xs : List ℚ) (a : ℚ) : a ≤ xs.foldl max a := by
  induction xs generalizing a with
  | nil => exact le_refl a
  | cons x xs ih => exact le_trans (le_max_left a x) (ih (max a x))

lemma mem_le_foldl_max (xs : List ℚ) (a b : ℚ) (hb : b ∈ xs) : b ≤ xs.foldl max a := by
  induction xs generalizing a with
  | nil => cases hb
  | cons x xs ih =>
    rcases List.mem_cons.mp hb with h | h
    · subst h
      exact le_trans (le_max_right a b) (le_foldl_max xs (max a b))
    · exact ih (max a x) h

lemma foldl_max_mem (xs : List ℚ) (a : ℚ) : xs.foldl max a = a ∨ xs.foldl max a ∈ xs := by
  induction xs generalizing a with
  | nil => left; rfl
  | cons x xs ih =>
    rcases ih (max a x) with h | h
    · rw [List.foldl_cons, h]
      rcases max_choice a x with h2 | h2
      · left; exact h2
      · right; rw [h2]; exact List.mem_cons_self x xs
    · right
      exact List.mem_cons_of_mem x h

lemma maxValue_mem (s : List ℚ) (hs : s ≠ []) : maxValue s ∈ s := by
  cases s with
  | nil => exact absurd rfl hs
  | cons x xs =>
    have h : maxValue (x :: xs) = xs.foldl max x := by
      simp [maxValue, List.foldl_cons, max_self]
    rw [h]
    rcases foldl_max_mem xs x with h2 | h2
    · rw [h2]; exact List.mem_cons_self x xs
    · exact List.mem_cons_of_mem x h2

lemma le_maxValue (s : List ℚ) (b : ℚ) (hb : b ∈ s) : b ≤ maxValue s := by
  cases s with
  | nil => cases hb
  | cons x xs =>
    have h : maxValue (x :: xs) = xs.foldl max x := by
      simp [maxValue, List.foldl_cons, max_self]
    rw [h]
    rcases List.mem_cons.mp hb with h2 | h2
    · subst h2; exact le_foldl_max xs b
    · exact mem_le_foldl_max xs x b h2

lemma getD_mem (s : List ℚ) (j : ℕ) (hj : j < s.length) : s.getD j 0 ∈ s := by
  rw [List.getD_eq_getElem _ _ hj]
  exact List.getElem_mem hj

lemma is_max_iff (s : List ℚ) (hs : s ≠ []) (i : ℕ) (hi : i < s.length) :
    s.getD i 0 = maxValue s ↔ ∀ j, j < s.length → s.getD j 0 ≤ s.getD i 0 := by
  constructor
  · intro h j hj
    rw [h]
    exact le_maxValue s _ (getD_mem s j hj)
  · intro h
    obtain ⟨j0, hj0, hvj0⟩ := List.mem_iff_getElem.mp (maxValue_mem s hs)
    have h1 : s.getD i 0 ≤ maxValue s := le_maxValue s _ (getD_mem s i hi)
    have h2 : maxValue s ≤ s.getD i 0 := by
      rw [← hvj0, ← List.getD_eq_getElem s 0 hj0]
      exact h j0 hj0
    exact le_antisymm h1 h2

lemma maxIndices_eq_argmax (s : List ℚ) (hs : s ≠ []) :
    maxIndices s = argmaxIndices s := by
  unfold maxIndices argmaxIndices
  apply List.filter_congr
  intro i hi
  have hi' : i < s.length := List.mem_range.mp hi
  have hiff := is_max_iff s hs i hi'
  rw [Bool.eq_iff_iff]
  simp only [decide_eq_true_eq, List.all_eq_true]
  constructor
  · intro h j hj
    exact (hiff.mp h) j (List.mem_range.mp hj)
  · intro h
    exact hiff.mpr (fun j hj => h j (List.mem_range.mpr hj))

lemma argmax_ne_nil (s : List ℚ) (hs : s ≠ []) : argmaxIndices s ≠ [] := by
  rw [← maxIndices_eq_argmax s hs]
  obtain ⟨j0, hj0, hvj0⟩ := List.mem_iff_getElem.mp (maxValue_mem s hs)
  have hmem : j0 ∈ maxIndices s := by
    unfold maxIndices
    rw [List.mem_filter]
    refine ⟨List.mem_range.mpr hj0, ?_⟩
    rw [decide_eq_true_eq, List.getD_eq_getElem s 0 hj0]
    exact hvj0
  intro hnil
  rw [hnil] at hmem
  cases hmem

/-- Claim C4: for every non-empty stimulus vector, the computed winner list is
exactly the set of maximising indices; with two or more winners AllowTies
returns that full list and RejectTies returns the no-selection marker; with a
unique winner both return that same single index. -/
theorem c4_selectors (s : List ℚ) (hs : s ≠ []) :
    maxIndices s = argmaxIndices s ∧
    argmaxIndices s ≠ [] ∧
    (2 ≤ (argmaxIndices s).length →
      select_stimulus s = Sum.inl (argmaxIndices s) ∧
      select_stimulus_no_winner s = none) ∧
    ((argmaxIndices s).length = 1 →
      select_stimulus s = Sum.inr ((argmaxIndices s).headD 0) ∧
      select_stimulus_no_winner s = some ((argmaxIndices s).headD 0)) := by
  have heq := maxIndices_eq_argmax s hs
  refine ⟨heq, argmax_ne_nil s hs, ?_, ?_⟩
  · intro h2
    unfold select_stimulus select_stimulus_no_winner
    rw [heq]
    rw [if_pos (by omega), if_pos (by omega)]
    exact ⟨rfl, rfl⟩
  · intro h1
    unfold select_stimulus select_stimulus_no_winner
    rw [heq]
    rw [if_neg (by omega), if_neg (by omega)]
    exact ⟨rfl, rfl⟩

/-- Witness for C4 at the tied stimulus vector of Simulation 2. -/
theorem c4_selectors_witness :
    stimuli_2 ≠ [] ∧
    (maxIndices stimuli_2 = argmaxIndices stimuli_2 ∧
     argmaxIndices stimuli_2 ≠ [] ∧
     (2 ≤ (argmaxIndices stimuli_2).length →
       select_stimulus stimuli_2 = Sum.inl (argmaxIndices stimuli_2) ∧
       select_stimulus_no_winner stimuli_2 = none) ∧
     ((argmaxIndices stimuli_2).length = 1 →
       select_stimulus stimuli_2 = Sum.inr ((argmaxIndices stimuli_2).headD 0) ∧
       select_stimulus_no_winner stimuli_2 = some ((argmaxIndices stimuli_2).headD 0))) :=
  ⟨by simp [stimuli_2], c4_selectors stimuli_2 (by simp [stimuli_2])⟩


lemma map_sub_const_sum (l : List ℕ) (c : ℚ) :
    (l.map (fun j : ℕ => (j : ℚ) - c)).sum = (l.map (Nat.cast : ℕ → ℚ)).sum - l.length * c := by
  induction l with
  | nil => simp
  | cons x xs ih =>
    simp [ih]
    ring

/-- Claim C5: the tied-winner direction is the average of `i - (n-1)/2`, which
equals `average(i) - (n-1)/2`; a unique winner `i` yields direction
`i - (n-1)/2` exactly; and on the Simulation 2 stimuli the tied indices are
`{3, 8}` with AllowTies direction `1`. -/
theorem c5_motor (l : List ℕ) (n : ℕ) (s : List ℚ) (i : ℕ)
    (hl : l ≠ []) (hsel : select_stimulus s = Sum.inr i) :
    direction_tied l n
      = (l.map (Nat.cast : ℕ → ℚ)).sum / (l.length : ℚ) - ((n : ℚ) - 1) / 2 ∧
    motor_scheme s = (i : ℚ) - ((s.length : ℚ) - 1) / 2 ∧
    select_stimulus stimuli_2 = Sum.inl [3, 8] ∧
    motor_scheme stimuli_2 = 1 := by
  refine ⟨?_, ?_, ?_, ?_⟩
  · have hlen : (l.length : ℚ) ≠ 0 := by
      have : l.length ≠ 0 := fun h => hl (List.length_eq_zero.mp h)
      exact_mod_cast this
    unfold direction_tied direction_single
    rw [map_sub_const_sum, sub_div, mul_div_cancel_left₀ _ hlen]
  · unfold motor_scheme
    rw [hsel]
    rfl
  · norm_num [select_stimulus, maxIndices, maxValue, stimuli_2, max_def, List.range_succ]
  · norm_num [motor_scheme, select_stimulus, maxIndices, maxValue, stimuli_2, max_def,
      List.range_succ, direction_tied, direction_single]

/-- Witness for C5 at the tied list `[3, 8]`, `n = 10`, and the Simulation 1
stimuli whose unique winner is index 8. -/
theorem c5_motor_witness :
    ([3, 8] : List ℕ) ≠ [] ∧
    select_stimulus stimuli_1 = Sum.inr 8 ∧
    (direction_tied [3, 8] 10
       = (([3, 8] : List ℕ).map (Nat.cast : ℕ → ℚ)).sum / (([3, 8] : List ℕ).length : ℚ)
         - ((10 : ℚ) - 1) / 2 ∧
     motor_scheme stimuli_1 = (8 : ℚ) - ((stimuli_1.length : ℚ) - 1) / 2 ∧
     select_stimulus stimuli_2 = Sum.inl [3, 8] ∧
     motor_scheme stimuli_2 = 1) :=
  ⟨by simp, by norm_num [select_stimulus, maxIndices, maxValue, stimuli_1, max_def,
      List.range_succ],
   c5_motor [3, 8] 10 stimuli_1 8 (by simp)
     (by norm_num [select_stimulus, maxIndices, maxValue, stimuli_1, max_def,
        List.range_succ])⟩

/-- Claim C6: the hysteresis comparison is strict: when the maximal stimulus
(or streaming input) is less than or equal to the threshold — including exact
equality — the previous output and retained state are returned unchanged; only
a strictly greater input drives an update; with threshold 0.75, previous
output 0.7 and maximal stimulus 0.73 the result is 0.7. -/
theorem c6_hysteresis (s s2 : List ℚ) (prev th prev2 th2 : ℚ)
    (f : ℚ → ℚ → ℚ → ℚ) (um um2 dt I I2 v t vprev : ℚ)
    (hhold : maxValue s ≤ th) (hdrive : th2 < maxValue s2)
    (hI : I ≤ um) (hI2 : um2 < I2) :
    hysteresis s prev th = prev ∧
    hysteresis s2 prev2 th2 = maxValue s2 ∧
    hystStep f um dt I v t vprev = (vprev, vprev) ∧
    hystStep f um2 dt I2 v t vprev
      = (v + f v t I2 * dt, v + f v t I2 * dt) ∧
    hysteresis stimuli_4 (7/10) (3/4) = 7/10 ∧
    maxValue stimuli_4 = 73/100 := by
  refine ⟨?_, ?_, ?_, ?_, ?_, ?_⟩
  · unfold hysteresis
    rw [if_neg (not_lt.mpr hhold)]
  · unfold hysteresis
    rw [if_pos hdrive]
  · unfold hystStep
    rw [if_neg (not_lt.mpr hI)]
  · unfold hystStep
    rw [if_pos hI2]
  · norm_num [hysteresis, maxValue, stimuli_4, max_def]
  · norm_num [maxValue, stimuli_4, max_def]

/-- Witness for C6 with an input exactly equal to the threshold in the held
branch. -/
theorem c6_hysteresis_witness :
    maxValue [(1 : ℚ)/2] ≤ 1/2 ∧ (0 : ℚ) < maxValue [(1 : ℚ)] ∧
    (0 : ℚ) ≤ 0 ∧ (0 : ℚ) < 1 ∧
    (hysteresis [(1 : ℚ)/2] (7/10) (1/2) = 7/10 ∧
     hysteresis [(1 : ℚ)] 0 0 = maxValue [(1 : ℚ)] ∧
     hystStep (fun _ _ _ => (0 : ℚ)) 0 0 0 0 0 (7/10) = (7/10, 7/10) ∧
     hystStep (fun _ _ _ => (0 : ℚ)) 0 0 1 0 0 (7/10)
       = (0 + (fun _ _ _ => (0 : ℚ)) 0 0 1 * 0, 0 + (fun _ _ _ => (0 : ℚ)) 0 0 1 * 0) ∧
     hysteresis stimuli_4 (7/10) (3/4) = 7/10 ∧
     maxValue stimuli_4 = 73/100) :=
  ⟨by norm_num [maxValue], by norm_num [maxValue], le_refl 0, by norm_num,
   c6_hysteresis [(1 : ℚ)/2] [(1 : ℚ)] (7/10) (1/2) 0 0 (fun _ _ _ => 0) 0 0 0 0 1 0 0 (7/10)
     (by norm_num [maxValue]) (by norm_num [maxValue]) (le_refl 0) (by norm_num)⟩
